import Mathlib

/-!
Verification of the aerostructural coupling components of OpenAeroStruct:
`openaerostruct/aerodynamics/solve_matrix.py` (the `SolveMatrix` implicit
component: LU-based circulation solve, residual, analytic partials, and the
forward/reverse cached-factorization linear solves) and `transfer.py`
(`TransferDisplacements` and `TransferLoads`).

The numeric model is exact arithmetic: `ℚ` for the solver and the load
transfer (whose source formulas are rational arithmetic), `ℝ` for the
displacement transfer (whose source uses `numpy.cos`/`numpy.sin`).  The
`scipy.linalg.lu_factor` / `lu_solve` calls are embedded as an executable
partial-pivoting LU factorization over `ℚ` (as LAPACK `getrf`, a zero pivot
column is flagged — scipy only emits a warning — and elimination continues),
together with the unit-lower / upper triangular substitutions of `getrs`
for the `trans=0` and `trans=1` solve modes.

Array shapes follow the source: a surface mesh has `nx = cx + 2` chordwise
rows and `ny = my + 1` spanwise stations (the code indexes `a_pts[0, ...]`
and `mesh[1:, ...]`, so it requires `nx ≥ 2`), sectional forces are
`(nx-1) × (ny-1) × 3`, and nodal loads are `ny × 6`.
-/

namespace OAS

/-! ### `TransferLoads.solve_nonlinear` (transfer.py)

`sec_forces = numpy.sum(sec_forces, axis=0)` reduces the chordwise
dimension; `a_pts` / `s_pts` bilinearly interpolate the four panel corners
at chordwise weights `0.25` and `fem_origin`; the panel moment is
`cross(a_pts[0,j] - s_pts[0,j], F[j])`; forces and moments are accumulated
half-and-half onto the two bounding nodes. -/

/-- `sec_forces = numpy.sum(sec_forces, axis=0)`: chordwise reduction of the
sectional-force field. -/
def secReduce {cx my : ℕ} (sf : Fin (cx + 1) → Fin my → Fin 3 → ℚ)
    (j : Fin my) (c : Fin 3) : ℚ :=
  ∑ i, sf i j c

/-- The panel-corner interpolation
`0.5*(1-w)*mesh[:-1,:-1] + 0.5*w*mesh[1:,:-1] + 0.5*(1-w)*mesh[:-1,1:] + 0.5*w*mesh[1:,1:]`
used for both `a_pts` (with `w = 0.25`) and `s_pts` (with `w = fem_origin`). -/
def interpPts {cx my : ℕ} (w : ℚ) (mesh : Fin (cx + 2) → Fin (my + 1) → Fin 3 → ℚ)
    (i : Fin (cx + 1)) (j : Fin my) (c : Fin 3) : ℚ :=
  (1/2) * (1 - w) * mesh i.castSucc j.castSucc c + (1/2) * w * mesh i.succ j.castSucc c
    + (1/2) * (1 - w) * mesh i.castSucc j.succ c + (1/2) * w * mesh i.succ j.succ c

/-- `numpy.cross` on 3-vectors. -/
def crossVec (r f : Fin 3 → ℚ) : Fin 3 → ℚ :=
  ![r 1 * f 2 - r 2 * f 1, r 2 * f 0 - r 0 * f 2, r 0 * f 1 - r 1 * f 0]

/-- `moment[j] = cross(a_pts[0,j] - s_pts[0,j], sec_forces[j])`: only the
first chordwise row of the interpolated points enters the moment arm. -/
def momentArr {cx my : ℕ} (w : ℚ) (mesh : Fin (cx + 2) → Fin (my + 1) → Fin 3 → ℚ)
    (sf : Fin (cx + 1) → Fin my → Fin 3 → ℚ) (j : Fin my) : Fin 3 → ℚ :=
  crossVec (fun c => interpPts (1/4) mesh 0 j c - interpPts w mesh 0 j c)
    (fun c => secReduce sf j c)

/-- `TransferLoads.solve_nonlinear`: nodal loads `(ny, 6)`.
`loads[:-1,:3] += 0.5*sec_forces`, `loads[1:,:3] += 0.5*sec_forces`,
`loads[:-1,3:] += 0.5*moment`, `loads[1:,3:] += 0.5*moment`. -/
def transferLoads {cx my : ℕ} (w : ℚ) (mesh : Fin (cx + 2) → Fin (my + 1) → Fin 3 → ℚ)
    (sf : Fin (cx + 1) → Fin my → Fin 3 → ℚ) (j : Fin (my + 1)) (c : Fin 6) : ℚ :=
  if hc : (c : ℕ) < 3 then
    (if h : (j : ℕ) < my then (1/2) * secReduce sf ⟨j, h⟩ ⟨c, hc⟩ else 0)
      + (if h : 0 < (j : ℕ) then
          (1/2) * secReduce sf ⟨(j : ℕ) - 1, by have := j.isLt; omega⟩ ⟨c, hc⟩ else 0)
  else
    (if h : (j : ℕ) < my then
        (1/2) * momentArr w mesh sf ⟨j, h⟩ ⟨(c : ℕ) - 3, by have := c.isLt; omega⟩ else 0)
      + (if h : 0 < (j : ℕ) then
          (1/2) * momentArr w mesh sf ⟨(j : ℕ) - 1, by have := j.isLt; omega⟩
            ⟨(c : ℕ) - 3, by have := c.isLt; omega⟩ else 0)

/-- Summing either half-contribution over the spanwise nodes collects each
panel's value exactly once. -/
theorem sum_half_scatter {my : ℕ} (g : Fin my → ℚ) :
    (∑ j : Fin (my + 1), ((if h : (j : ℕ) < my then (1/2) * g ⟨j, h⟩ else 0)
      + (if h : 0 < (j : ℕ) then (1/2) * g ⟨(j : ℕ) - 1, by have := j.isLt; omega⟩ else 0)))
      = ∑ p : Fin my, g p := by
  rw [Finset.sum_add_distrib]
  have h1 : (∑ j : Fin (my + 1), (if h : (j : ℕ) < my then (1/2) * g ⟨j, h⟩ else 0))
      = ∑ p : Fin my, (1/2) * g p := by
    rw [Fin.sum_univ_castSucc]
    have hlast : (if h : ((Fin.last my : Fin (my + 1)) : ℕ) < my
        then (1/2) * g ⟨(Fin.last my : Fin (my + 1)), h⟩ else 0) = 0 := by
      rw [dif_neg]; simp [Fin.last]
    rw [hlast, add_zero]
    refine Finset.sum_congr rfl fun p _ => ?_
    rw [dif_pos (by simp)]
    congr 1
  have h2 : (∑ j : Fin (my + 1),
      (if h : 0 < (j : ℕ) then (1/2) * g ⟨(j : ℕ) - 1, by have := j.isLt; omega⟩ else 0))
      = ∑ p : Fin my, (1/2) * g p := by
    rw [Fin.sum_univ_succ]
    have h0 : (if h : 0 < ((0 : Fin (my + 1)) : ℕ)
        then (1/2) * g ⟨((0 : Fin (my + 1)) : ℕ) - 1, by omega⟩ else 0) = 0 := by
      rw [dif_neg]; simp
    rw [h0, zero_add]
    refine Finset.sum_congr rfl fun p _ => ?_
    rw [dif_pos (by simp)]
    simp
  rw [h1, h2, ← Finset.sum_add_distrib]
  refine Finset.sum_congr rfl fun p _ => ?_
  ring

/-- Force-conservation helper: for any `fem_origin`, deformed mesh and
sectional forces, and any force component, the nodal loads sum to the total
of the chordwise-reduced sectional forces. -/
theorem transferLoads_conserves {cx my : ℕ} (w : ℚ)
    (mesh : Fin (cx + 2) → Fin (my + 1) → Fin 3 → ℚ)
    (sf : Fin (cx + 1) → Fin my → Fin 3 → ℚ) (c : Fin 3) :
    (∑ j, transferLoads w mesh sf j (Fin.castLE (by norm_num) c))
      = ∑ p, secReduce sf p c := by
  have hc : ((Fin.castLE (by norm_num : (3:ℕ) ≤ 6) c : Fin 6) : ℕ) < 3 := c.isLt
  have : ∀ j, transferLoads w mesh sf j (Fin.castLE (by norm_num) c)
      = (if h : (j : ℕ) < my then (1/2) * secReduce sf ⟨j, h⟩ c else 0)
        + (if h : 0 < (j : ℕ) then
            (1/2) * secReduce sf ⟨(j : ℕ) - 1, by have := j.isLt; omega⟩ c else 0) := by
    intro j
    rw [transferLoads, dif_pos hc]
    congr 1
  rw [Finset.sum_congr rfl fun j _ => this j]
  exact sum_half_scatter fun p => secReduce sf p c

/-! ### `TransferDisplacements.solve_nonlinear` (transfer.py)

`ref_curve = (1-w)*mesh[0] + w*mesh[-1]`; `Smesh = mesh - ref_curve`;
per spanwise station the 3×3 transform `T` starts from `-2*eye(3)` and adds
the three single-axis 2×2 rotation blocks (`T[1:,1:]`, `T[::2,::2]`,
`T[:2,:2]`); finally `def_mesh = Smesh.dot(T) + (dx,dy,dz) + mesh`. -/

/-- The `rx` block: `T[1:, 1:] += [[cos rx, -sin rx], [sin rx, cos rx]]`. -/
noncomputable def rotX (rx : ℝ) : Matrix (Fin 3) (Fin 3) ℝ :=
  ![![0, 0, 0], ![0, Real.cos rx, -Real.sin rx], ![0, Real.sin rx, Real.cos rx]]

/-- The `ry` block: `T[::2, ::2] += [[cos ry, sin ry], [-sin ry, cos ry]]`. -/
noncomputable def rotY (ry : ℝ) : Matrix (Fin 3) (Fin 3) ℝ :=
  ![![Real.cos ry, 0, Real.sin ry], ![0, 0, 0], ![-Real.sin ry, 0, Real.cos ry]]

/-- The `rz` block: `T[:2, :2] += [[cos rz, -sin rz], [sin rz, cos rz]]`. -/
noncomputable def rotZ (rz : ℝ) : Matrix (Fin 3) (Fin 3) ℝ :=
  ![![Real.cos rz, -Real.sin rz, 0], ![Real.sin rz, Real.cos rz, 0], ![0, 0, 0]]

/-- `T = -2*eye(3)` plus the three rotation blocks. -/
noncomputable def dispT (rx ry rz : ℝ) : Matrix (Fin 3) (Fin 3) ℝ :=
  (-2 : ℝ) • (1 : Matrix (Fin 3) (Fin 3) ℝ) + rotX rx + rotY ry + rotZ rz

/-- `ref_curve = (1-w) * mesh[0, :, :] + w * mesh[-1, :, :]`. -/
noncomputable def refCurve {mx my : ℕ} (w : ℝ) (mesh : Fin (mx + 1) → Fin (my + 1) → Fin 3 → ℝ)
    (j : Fin (my + 1)) (c : Fin 3) : ℝ :=
  (1 - w) * mesh 0 j c + w * mesh (Fin.last mx) j c

/-- `Smesh[ind, :, :] = mesh[ind, :, :] - ref_curve`. -/
noncomputable def smesh {mx my : ℕ} (w : ℝ) (mesh : Fin (mx + 1) → Fin (my + 1) → Fin 3 → ℝ)
    (i : Fin (mx + 1)) (j : Fin (my + 1)) (c : Fin 3) : ℝ :=
  mesh i j c - refCurve w mesh j c

/-- `TransferDisplacements.solve_nonlinear`:
`def_mesh[:, ind, :] = Smesh[:, ind, :].dot(T) + (dx, dy, dz) + mesh[:, ind, :]`,
with `(dx, dy, dz, rx, ry, rz) = disp[ind, :]` and `w = fem_origin`. -/
noncomputable def transferDisp {mx my : ℕ} (w : ℝ)
    (mesh : Fin (mx + 1) → Fin (my + 1) → Fin 3 → ℝ)
    (disp : Fin (my + 1) → Fin 6 → ℝ)
    (i : Fin (mx + 1)) (j : Fin (my + 1)) (c : Fin 3) : ℝ :=
  (∑ k, smesh w mesh i j k * dispT (disp j 3) (disp j 4) (disp j 5) k c)
    + disp j (Fin.castLE (by norm_num) c) + mesh i j c

/-- At zero rotation angles the transform `T` is the zero matrix: each
diagonal entry receives `-2 + 1 + 1` and each off-diagonal entry only
`±sin 0` terms. -/
theorem dispT_zero : dispT 0 0 0 = 0 := by
  funext k c
  fin_cases k <;> fin_cases c <;>
    simp [dispT, rotX, rotY, rotZ, Matrix.one_apply, Matrix.vecHead, Matrix.vecTail] <;>
    norm_num

/-- With an all-zero displacement field the deformed mesh equals the input
mesh, for every `fem_origin`. -/
theorem transferDisp_zero {mx my : ℕ} (w : ℝ)
    (mesh : Fin (mx + 1) → Fin (my + 1) → Fin 3 → ℝ) :
    transferDisp w mesh (fun _ _ => 0) = mesh := by
  funext i j c
  rw [transferDisp]
  rw [show dispT ((0:ℝ)) 0 0 = 0 from dispT_zero]
  simp

/-- With zero rotations and a station-independent translation the deformed
mesh is the input mesh shifted by exactly that translation. -/
theorem transferDisp_translate {mx my : ℕ} (w : ℝ)
    (mesh : Fin (mx + 1) → Fin (my + 1) → Fin 3 → ℝ) (dx dy dz : ℝ) :
    transferDisp w mesh (fun _ => ![dx, dy, dz, 0, 0, 0])
      = fun i j c => mesh i j c + ![dx, dy, dz] c := by
  funext i j c
  rw [transferDisp]
  rw [show (![dx, dy, dz, 0, 0, 0] 3 : ℝ) = 0 from rfl,
    show (![dx, dy, dz, 0, 0, 0] 4 : ℝ) = 0 from rfl,
    show (![dx, dy, dz, 0, 0, 0] 5 : ℝ) = 0 from rfl, dispT_zero]
  have hc : (![dx, dy, dz, 0, 0, 0] (Fin.castLE (by norm_num) c) : ℝ) = ![dx, dy, dz] c := by
    fin_cases c <;> rfl
  simp [hc]
  ring

/-! ### `SolveMatrix` (openaerostruct/aerodynamics/solve_matrix.py)

`solve_nonlinear` calls `scipy.linalg.lu_factor` (LAPACK `getrf`: partial
pivoting by largest absolute value, elimination continuing through an
exactly-zero pivot, which is only flagged) and `lu_solve` (LAPACK `getrs`:
row pivots, then unit-lower and upper triangular substitution; `trans=1`
transposes the two substitutions and applies the pivots last).  The
factorization is embedded over `ℚ`, block-recursively on the dimension. -/

/-- The result of `lu_factor`: row permutation, unit lower factor, upper
factor, and the `getrf` singularity flag (scipy surfaces it as a
`LinAlgWarning`, not an exception). -/
structure LUFacts (n : ℕ) where
  perm : Equiv.Perm (Fin n)
  lo : Matrix (Fin n) (Fin n) ℚ
  up : Matrix (Fin n) (Fin n) ℚ
  sing : Bool

/-- `idamax`: the first index attaining the largest absolute value. -/
def pivotIndex {n : ℕ} (c : Fin (n + 1) → ℚ) : Fin (n + 1) :=
  (List.finRange (n + 1)).foldl (fun best i => if |c best| < |c i| then i else best) 0

theorem pivotIndex_aux {n : ℕ} (c : Fin (n + 1) → ℚ) (l : List (Fin (n + 1)))
    (b : Fin (n + 1)) :
    |c b| ≤ |c (l.foldl (fun best i => if |c best| < |c i| then i else best) b)| ∧
      ∀ i ∈ l, |c i| ≤ |c (l.foldl (fun best i => if |c best| < |c i| then i else best) b)| := by
  induction l generalizing b with
  | nil => simp
  | cons a l ih =>
    have hstep : |c b| ≤ |c (if |c b| < |c a| then a else b)| ∧
        |c a| ≤ |c (if |c b| < |c a| then a else b)| := by
      by_cases h : |c b| < |c a|
      · rw [if_pos h]; exact ⟨le_of_lt h, le_refl _⟩
      · rw [if_neg h]; exact ⟨le_refl _, le_of_not_lt h⟩
    refine ⟨le_trans hstep.1 (ih _).1, ?_⟩
    intro i hi
    rcases List.mem_cons.mp hi with h | h
    · subst h; exact le_trans hstep.2 (ih _).1
    · exact (ih _).2 i h

/-- Partial pivoting picks a maximal-magnitude pivot. -/
theorem pivotIndex_le {n : ℕ} (c : Fin (n + 1) → ℚ) (i : Fin (n + 1)) :
    |c i| ≤ |c (pivotIndex c)| :=
  (pivotIndex_aux c (List.finRange (n + 1)) 0).2 i (List.mem_finRange i)

/-- If the chosen pivot is zero, the whole column is zero. -/
theorem pivotIndex_eq_zero {n : ℕ} (c : Fin (n + 1) → ℚ)
    (h : c (pivotIndex c) = 0) (i : Fin (n + 1)) : c i = 0 := by
  have := pivotIndex_le c i
  rw [h] at this
  simpa using abs_nonpos_iff.mp (by simpa using this)

/-- The pivot row chosen for the leading column. -/
def pivRow {n : ℕ} (M : Matrix (Fin (n + 1)) (Fin (n + 1)) ℚ) : Fin (n + 1) :=
  pivotIndex fun i => M i 0

/-- `M` with the pivot row swapped to the top. -/
def swapTop {n : ℕ} (M : Matrix (Fin (n + 1)) (Fin (n + 1)) ℚ) :
    Matrix (Fin (n + 1)) (Fin (n + 1)) ℚ :=
  Matrix.of fun i j => M (Equiv.swap 0 (pivRow M) i) j

/-- Elimination multipliers below the pivot. -/
def mults {n : ℕ} (M : Matrix (Fin (n + 1)) (Fin (n + 1)) ℚ) (i : Fin n) : ℚ :=
  swapTop M i.succ 0 / swapTop M 0 0

/-- The eliminated trailing block (Schur complement). -/
def schur {n : ℕ} (M : Matrix (Fin (n + 1)) (Fin (n + 1)) ℚ) : Matrix (Fin n) (Fin n) ℚ :=
  Matrix.of fun i j => swapTop M i.succ j.succ - mults M i * swapTop M 0 j.succ

/-- `scipy.linalg.lu_factor`, block-recursively: swap the pivot row to the
top, eliminate the leading column, factor the Schur complement. -/
def luFactor : {n : ℕ} → Matrix (Fin n) (Fin n) ℚ → LUFacts n
  | 0, _ => ⟨1, 1, 1, false⟩
  | _ + 1, M =>
    let r := luFactor (schur M)
    ⟨Equiv.Perm.decomposeFin.symm (pivRow M, r.perm),
      Matrix.of fun i j => Fin.cases (Fin.cases 1 (fun _ => (0 : ℚ)) j)
        (fun i2 => Fin.cases (mults M (r.perm i2)) (fun j2 => r.lo i2 j2) j) i,
      Matrix.of fun i j => Fin.cases (Fin.cases (swapTop M 0 0) (fun j2 => swapTop M 0 j2.succ) j)
        (fun i2 => Fin.cases 0 (fun j2 => r.up i2 j2) j) i,
      if swapTop M 0 0 = 0 then true else r.sing⟩

theorem luFactor_succ {n : ℕ} (M : Matrix (Fin (n + 1)) (Fin (n + 1)) ℚ) :
    luFactor M =
      ⟨Equiv.Perm.decomposeFin.symm (pivRow M, (luFactor (schur M)).perm),
        Matrix.of fun i j => Fin.cases (Fin.cases 1 (fun _ => (0 : ℚ)) j)
          (fun i2 => Fin.cases (mults M ((luFactor (schur M)).perm i2))
            (fun j2 => (luFactor (schur M)).lo i2 j2) j) i,
        Matrix.of fun i j =>
          Fin.cases (Fin.cases (swapTop M 0 0) (fun j2 => swapTop M 0 j2.succ) j)
            (fun i2 => Fin.cases 0 (fun j2 => (luFactor (schur M)).up i2 j2) j) i,
        if swapTop M 0 0 = 0 then true else (luFactor (schur M)).sing⟩ := rfl

/-- A zero pivot means the whole leading column is zero. -/
theorem swapTop_col_zero {n : ℕ} (M : Matrix (Fin (n + 1)) (Fin (n + 1)) ℚ)
    (h : swapTop M 0 0 = 0) (i : Fin (n + 1)) : swapTop M i 0 = 0 := by
  have hp : M (pivRow M) 0 = 0 := by
    simpa [swapTop, Equiv.swap_apply_left] using h
  simp only [swapTop, Matrix.of_apply]
  exact pivotIndex_eq_zero (fun i => M i 0) hp _

/-- Multiplier times pivot recovers the eliminated entry, also through a
zero pivot (where the whole column vanishes). -/
theorem mults_mul_pivot {n : ℕ} (M : Matrix (Fin (n + 1)) (Fin (n + 1)) ℚ) (i : Fin n) :
    mults M i * swapTop M 0 0 = swapTop M i.succ 0 := by
  by_cases h : swapTop M 0 0 = 0
  · rw [h, swapTop_col_zero M h]
    ring
  · rw [mults, div_mul_cancel₀ _ h]

/-- Factorization invariant of `getrf`: the product of the factors is the
row-permuted input matrix, whether or not a zero pivot was hit. -/
theorem luFactor_mul_eq {n : ℕ} : ∀ (M : Matrix (Fin n) (Fin n) ℚ) (i j : Fin n),
    ((luFactor M).lo * (luFactor M).up) i j = M ((luFactor M).perm i) j := by
  induction n with
  | zero => exact fun M i j => i.elim0
  | succ n ih =>
    intro M i j
    rw [luFactor_succ]
    dsimp only
    rcases Fin.eq_zero_or_eq_succ i with rfl | ⟨i2, rfl⟩
    · rcases Fin.eq_zero_or_eq_succ j with rfl | ⟨j2, rfl⟩ <;>
        simp [Matrix.mul_apply, Fin.sum_univ_succ, swapTop, Equiv.swap_apply_left]
    · rcases Fin.eq_zero_or_eq_succ j with rfl | ⟨j2, rfl⟩
      · rw [Equiv.Perm.decomposeFin_symm_apply_succ]
        have hm := mults_mul_pivot M ((luFactor (schur M)).perm i2)
        simp only [swapTop, Matrix.of_apply, Equiv.swap_apply_left] at hm
        simp [Matrix.mul_apply, Fin.sum_univ_succ, hm, swapTop]
      · rw [Equiv.Perm.decomposeFin_symm_apply_succ]
        have h2 : ∑ k2, (luFactor (schur M)).lo i2 k2 * (luFactor (schur M)).up k2 j2
            = schur M ((luFactor (schur M)).perm i2) j2 := by
          rw [← Matrix.mul_apply]
          exact ih (schur M) i2 j2
        simp only [Matrix.mul_apply, Matrix.of_apply, Fin.cases_zero, Fin.cases_succ,
          Fin.sum_univ_succ]
        rw [h2]
        simp only [schur, Matrix.of_apply, swapTop]
        ring

/-- The lower factor is unit lower triangular: zero above the diagonal. -/
theorem luFactor_lo_upper {n : ℕ} : ∀ (M : Matrix (Fin n) (Fin n) ℚ) (i j : Fin n),
    (i : ℕ) < (j : ℕ) → (luFactor M).lo i j = 0 := by
  induction n with
  | zero => exact fun M i j _ => i.elim0
  | succ n ih =>
    intro M i j h
    rw [luFactor_succ]
    dsimp only
    rcases Fin.eq_zero_or_eq_succ i with rfl | ⟨i2, rfl⟩
    · rcases Fin.eq_zero_or_eq_succ j with rfl | ⟨j2, rfl⟩
      · simp at h
      · simp
    · rcases Fin.eq_zero_or_eq_succ j with rfl | ⟨j2, rfl⟩
      · simp at h
      · simp only [Matrix.of_apply, Fin.cases_succ]
        exact ih (schur M) i2 j2 (by simpa [Fin.val_succ] using h)

/-- The lower factor has unit diagonal. -/
theorem luFactor_lo_diag {n : ℕ} : ∀ (M : Matrix (Fin n) (Fin n) ℚ) (i : Fin n),
    (luFactor M).lo i i = 1 := by
  induction n with
  | zero => exact fun M i => i.elim0
  | succ n ih =>
    intro M i
    rw [luFactor_succ]
    dsimp only
    rcases Fin.eq_zero_or_eq_succ i with rfl | ⟨i2, rfl⟩
    · simp
    · simp only [Matrix.of_apply, Fin.cases_succ]
      exact ih (schur M) i2

/-- The upper factor is upper triangular: zero below the diagonal. -/
theorem luFactor_up_lower {n : ℕ} : ∀ (M : Matrix (Fin n) (Fin n) ℚ) (i j : Fin n),
    (j : ℕ) < (i : ℕ) → (luFactor M).up i j = 0 := by
  induction n with
  | zero => exact fun M i j _ => i.elim0
  | succ n ih =>
    intro M i j h
    rw [luFactor_succ]
    dsimp only
    rcases Fin.eq_zero_or_eq_succ i with rfl | ⟨i2, rfl⟩
    · simp at h
    · rcases Fin.eq_zero_or_eq_succ j with rfl | ⟨j2, rfl⟩
      · simp
      · simp only [Matrix.of_apply, Fin.cases_succ]
        exact ih (schur M) i2 j2 (by simpa [Fin.val_succ] using h)

/-- The `getrf` info flag is set exactly when the upper factor has a zero
diagonal entry. -/
theorem luFactor_sing_iff {n : ℕ} : ∀ (M : Matrix (Fin n) (Fin n) ℚ),
    (luFactor M).sing = true ↔ ∃ i, (luFactor M).up i i = 0 := by
  induction n with
  | zero =>
    intro M
    constructor
    · intro h; cases h
    · rintro ⟨i, _⟩; exact i.elim0
  | succ n ih =>
    intro M
    rw [luFactor_succ]
    dsimp only
    constructor
    · intro h
      by_cases hp : swapTop M 0 0 = 0
      · exact ⟨0, by simp [hp]⟩
      · rw [if_neg hp] at h
        obtain ⟨i2, hi2⟩ := (ih (schur M)).mp h
        exact ⟨i2.succ, by simpa using hi2⟩
    · rintro ⟨i, hi⟩
      by_cases hp : swapTop M 0 0 = 0
      · rw [if_pos hp]
      · rw [if_neg hp]
        rcases Fin.eq_zero_or_eq_succ i with rfl | ⟨i2, rfl⟩
        · simp only [Matrix.of_apply, Fin.cases_zero] at hi
          exact absurd hi hp
        · simp only [Matrix.of_apply, Fin.cases_succ] at hi
          exact (ih (schur M)).mpr ⟨i2, hi⟩

/-- Matrix form of the factorization invariant. -/
theorem luFactor_matrix_eq {n : ℕ} (M : Matrix (Fin n) (Fin n) ℚ) :
    (luFactor M).lo * (luFactor M).up = M.submatrix (luFactor M).perm id := by
  ext i j
  rw [luFactor_mul_eq M i j, Matrix.submatrix_apply]
  rfl

/-- The unit lower factor has determinant one. -/
theorem luFactor_lo_det {n : ℕ} (M : Matrix (Fin n) (Fin n) ℚ) :
    (luFactor M).lo.det = 1 := by
  rw [Matrix.det_of_lowerTriangular (luFactor M).lo]
  · exact Finset.prod_eq_one fun i _ => luFactor_lo_diag M i
  · intro i j hij
    exact luFactor_lo_upper M i j (by simpa using hij)

/-- The upper factor's determinant is the input determinant up to the sign
of the pivoting permutation. -/
theorem luFactor_up_det {n : ℕ} (M : Matrix (Fin n) (Fin n) ℚ) :
    (luFactor M).up.det = ((Equiv.Perm.sign (luFactor M).perm : ℤ) : ℚ) * M.det := by
  have h := congrArg Matrix.det (luFactor_matrix_eq M)
  rw [Matrix.det_mul, luFactor_lo_det, one_mul, Matrix.det_permute] at h
  exact_mod_cast h

/-- An invertible input forces every pivot (diagonal of the upper factor)
to be nonzero. -/
theorem luFactor_up_diag_ne {n : ℕ} (M : Matrix (Fin n) (Fin n) ℚ)
    (h : M.det ≠ 0) (i : Fin n) : (luFactor M).up i i ≠ 0 := by
  have hdet : (luFactor M).up.det ≠ 0 := by
    rw [luFactor_up_det]
    exact mul_ne_zero (Int.cast_ne_zero.mpr (Units.ne_zero _)) h
  rw [Matrix.det_of_upperTriangular
    (fun i j hij => luFactor_up_lower M i j (by simpa using hij))] at hdet
  exact Finset.prod_ne_zero_iff.mp hdet i (Finset.mem_univ i)

/-- An invertible input is never flagged singular. -/
theorem luFactor_sing_false {n : ℕ} (M : Matrix (Fin n) (Fin n) ℚ)
    (h : M.det ≠ 0) : (luFactor M).sing = false := by
  cases hs : (luFactor M).sing with
  | false => rfl
  | true =>
    obtain ⟨i, hi⟩ := (luFactor_sing_iff M).mp hs
    exact absurd hi (luFactor_up_diag_ne M h i)

/-- A singular input is always flagged (`getrf` reports a zero pivot;
scipy turns it into a warning). -/
theorem luFactor_sing_true {n : ℕ} (M : Matrix (Fin n) (Fin n) ℚ)
    (h : M.det = 0) : (luFactor M).sing = true := by
  rw [luFactor_sing_iff]
  have hdet : (luFactor M).up.det = 0 := by
    rw [luFactor_up_det, h, mul_zero]
  rw [Matrix.det_of_upperTriangular
    (fun i j hij => luFactor_up_lower M i j (by simpa using hij))] at hdet
  obtain ⟨i, _, hi⟩ := Finset.prod_eq_zero_iff.mp hdet
  exact ⟨i, hi⟩

/-! ### Triangular substitution (`getrs` / `trsv`) -/

/-- Forward substitution on a lower triangular system, dividing by the
diagonal (on the unit-diagonal factor `lo` the division is by `1`). -/
def forwardSub : {n : ℕ} → Matrix (Fin n) (Fin n) ℚ → (Fin n → ℚ) → (Fin n → ℚ)
  | 0, _, _ => fun i => i.elim0
  | _ + 1, A, c =>
    Fin.cons (c 0 / A 0 0)
      (forwardSub (Matrix.of fun i j => A i.succ j.succ)
        (fun i => c i.succ - A i.succ 0 * (c 0 / A 0 0)))

/-- Backward substitution on an upper triangular system. -/
def backSub : {n : ℕ} → Matrix (Fin n) (Fin n) ℚ → (Fin n → ℚ) → (Fin n → ℚ)
  | 0, _, _ => fun i => i.elim0
  | _ + 1, A, c =>
    let xs := backSub (Matrix.of fun i j => A i.succ j.succ) (fun i => c i.succ)
    Fin.cons ((c 0 - ∑ j, A 0 j.succ * xs j) / A 0 0) xs

theorem forwardSub_succ {n : ℕ} (A : Matrix (Fin (n + 1)) (Fin (n + 1)) ℚ)
    (c : Fin (n + 1) → ℚ) :
    forwardSub A c = Fin.cons (c 0 / A 0 0)
      (forwardSub (Matrix.of fun i j => A i.succ j.succ)
        (fun i => c i.succ - A i.succ 0 * (c 0 / A 0 0))) := rfl

theorem backSub_succ {n : ℕ} (A : Matrix (Fin (n + 1)) (Fin (n + 1)) ℚ)
    (c : Fin (n + 1) → ℚ) :
    backSub A c = Fin.cons
      ((c 0 - ∑ j, A 0 j.succ * backSub (Matrix.of fun i j => A i.succ j.succ)
          (fun i => c i.succ) j) / A 0 0)
      (backSub (Matrix.of fun i j => A i.succ j.succ) (fun i => c i.succ)) := rfl

/-- Forward substitution solves a lower triangular system whose diagonal is
nonzero. -/
theorem forwardSub_correct {n : ℕ} : ∀ (A : Matrix (Fin n) (Fin n) ℚ) (c : Fin n → ℚ),
    (∀ i j : Fin n, (i : ℕ) < (j : ℕ) → A i j = 0) → (∀ i, A i i ≠ 0) →
    A.mulVec (forwardSub A c) = c := by
  induction n with
  | zero => intro A c _ _; funext i; exact i.elim0
  | succ n ih =>
    intro A c htri hd
    funext i
    rw [forwardSub_succ]
    rcases Fin.eq_zero_or_eq_succ i with rfl | ⟨i2, rfl⟩
    · have hz : ∀ k2 : Fin n, A 0 k2.succ = 0 := fun k2 => htri 0 k2.succ (by simp)
      simp only [Matrix.mulVec, Matrix.dotProduct, Fin.sum_univ_succ, Fin.cons_zero, Fin.cons_succ]
      rw [Finset.sum_eq_zero fun k2 _ => by rw [hz k2, zero_mul], add_zero,
        mul_comm, div_mul_cancel₀ _ (hd 0)]
    · have hsub := ih (Matrix.of fun i j => A i.succ j.succ)
        (fun i => c i.succ - A i.succ 0 * (c 0 / A 0 0))
        (fun i j hij => htri i.succ j.succ (by simpa using hij))
        (fun i => hd i.succ)
      have hrow := congrFun hsub i2
      simp only [Matrix.mulVec, Matrix.dotProduct, Matrix.of_apply] at hrow
      simp only [Matrix.mulVec, Matrix.dotProduct, Fin.sum_univ_succ, Fin.cons_zero, Fin.cons_succ]
      rw [hrow]
      ring

/-- Backward substitution solves an upper triangular system whose diagonal
is nonzero. -/
theorem backSub_correct {n : ℕ} : ∀ (A : Matrix (Fin n) (Fin n) ℚ) (c : Fin n → ℚ),
    (∀ i j : Fin n, (j : ℕ) < (i : ℕ) → A i j = 0) → (∀ i, A i i ≠ 0) →
    A.mulVec (backSub A c) = c := by
  induction n with
  | zero => intro A c _ _; funext i; exact i.elim0
  | succ n ih =>
    intro A c htri hd
    funext i
    rw [backSub_succ]
    rcases Fin.eq_zero_or_eq_succ i with rfl | ⟨i2, rfl⟩
    · simp only [Matrix.mulVec, Matrix.dotProduct, Fin.sum_univ_succ, Fin.cons_zero, Fin.cons_succ]
      rw [mul_comm, div_mul_cancel₀ _ (hd 0)]
      ring
    · have hsub := ih (Matrix.of fun i j => A i.succ j.succ) (fun i => c i.succ)
        (fun i j hij => htri i.succ j.succ (by simpa using hij))
        (fun i => hd i.succ)
      have hrow := congrFun hsub i2
      simp only [Matrix.mulVec, Matrix.dotProduct, Matrix.of_apply] at hrow
      have h0 : A i2.succ 0 = 0 := htri i2.succ 0 (by simp)
      simp only [Matrix.mulVec, Matrix.dotProduct, Fin.sum_univ_succ, Fin.cons_zero, Fin.cons_succ]
      rw [h0, hrow]
      ring

/-! ### The `SolveMatrix` component interface -/

/-- `lu_solve(lu, b, trans=0)` (`getrs 'N'`): apply the row pivots to `b`,
then unit-lower forward substitution and upper backward substitution. -/
def luSolveForward {n : ℕ} (f : LUFacts n) (b : Fin n → ℚ) : Fin n → ℚ :=
  backSub f.up (forwardSub f.lo fun i => b (f.perm i))

/-- `lu_solve(lu, b, trans=1)` (`getrs 'T'`): solve with the transposed
factors (`Uᵀ` forward, then `Lᵀ` backward), applying the pivots last. -/
def luSolveTransposed {n : ℕ} (f : LUFacts n) (b : Fin n → ℚ) (i : Fin n) : ℚ :=
  backSub f.lo.transpose (forwardSub f.up.transpose b) (f.perm.symm i)

/-- `SolveMatrix.apply_nonlinear`:
`residuals['circulations'] = inputs['mtx'].dot(outputs['circulations']) - inputs['rhs']`. -/
def apply_nonlinear {n : ℕ} (mtx : Matrix (Fin n) (Fin n) ℚ)
    (circulations rhs : Fin n → ℚ) : Fin n → ℚ :=
  mtx.mulVec circulations - rhs

/-- `SolveMatrix.solve_nonlinear`: `self.lu = lu_factor(inputs['mtx'])`
followed by `outputs['circulations'] = lu_solve(self.lu, inputs['rhs'])`. -/
def solve_nonlinear {n : ℕ} (mtx : Matrix (Fin n) (Fin n) ℚ) (rhs : Fin n → ℚ) : Fin n → ℚ :=
  luSolveForward (luFactor mtx) rhs

/-- The derivative-solve mode requested by the framework. -/
inductive Mode where
  | fwd : Mode
  | rev : Mode

/-- `SolveMatrix.solve_linear`: given the cached factorization `self.lu`
(set by `solve_nonlinear` or `linearize`, both of which store
`lu_factor(inputs['mtx'])`), solve `trans=0` in forward mode and `trans=1`
in reverse mode; no re-factorization happens here. -/
def solve_linear {n : ℕ} (lu : LUFacts n) (mode : Mode) (seed : Fin n → ℚ) : Fin n → ℚ :=
  match mode with
  | Mode.fwd => luSolveForward lu seed
  | Mode.rev => luSolveTransposed lu seed

/-- The forward LU solve produces an exact solution of `M·x = b` whenever
`M` is invertible. -/
theorem luSolveForward_correct {n : ℕ} (M : Matrix (Fin n) (Fin n) ℚ)
    (b : Fin n → ℚ) (h : M.det ≠ 0) :
    M.mulVec (luSolveForward (luFactor M) b) = b := by
  have hup : (luFactor M).up.mulVec (luSolveForward (luFactor M) b)
      = forwardSub (luFactor M).lo fun i => b ((luFactor M).perm i) :=
    backSub_correct (luFactor M).up _ (fun i j hij => luFactor_up_lower M i j hij)
      (luFactor_up_diag_ne M h)
  have hlo : (luFactor M).lo.mulVec (forwardSub (luFactor M).lo fun i => b ((luFactor M).perm i))
      = fun i => b ((luFactor M).perm i) :=
    forwardSub_correct (luFactor M).lo _ (fun i j hij => luFactor_lo_upper M i j hij)
      (fun i => by rw [luFactor_lo_diag]; exact one_ne_zero)
  funext i
  have h1 : M.mulVec (luSolveForward (luFactor M) b) i
      = ((luFactor M).lo * (luFactor M).up).mulVec (luSolveForward (luFactor M) b)
          ((luFactor M).perm.symm i) := by
    simp only [Matrix.mulVec, Matrix.dotProduct]
    refine Finset.sum_congr rfl fun j _ => ?_
    rw [luFactor_mul_eq M ((luFactor M).perm.symm i) j, Equiv.apply_symm_apply]
  rw [h1, ← Matrix.mulVec_mulVec, hup, hlo]
  simp

/-- The transposed LU solve (reverse mode) produces an exact solution of
`Mᵀ·x = b` from the same factorization of `M`. -/
theorem luSolveTransposed_correct {n : ℕ} (M : Matrix (Fin n) (Fin n) ℚ)
    (b : Fin n → ℚ) (h : M.det ≠ 0) :
    M.transpose.mulVec (luSolveTransposed (luFactor M) b) = b := by
  have hy : (luFactor M).up.transpose.mulVec (forwardSub (luFactor M).up.transpose b) = b :=
    forwardSub_correct (luFactor M).up.transpose b
      (fun i j hij => luFactor_up_lower M j i hij)
      (fun i => luFactor_up_diag_ne M h i)
  have hz : (luFactor M).lo.transpose.mulVec
      (backSub (luFactor M).lo.transpose (forwardSub (luFactor M).up.transpose b))
      = forwardSub (luFactor M).up.transpose b :=
    backSub_correct (luFactor M).lo.transpose _
      (fun i j hij => luFactor_lo_upper M j i hij)
      (fun i => by rw [Matrix.transpose_apply, luFactor_lo_diag]; exact one_ne_zero)
  funext j
  have h1 : M.transpose.mulVec (luSolveTransposed (luFactor M) b) j
      = ∑ k, ((luFactor M).lo * (luFactor M).up) k j
          * backSub (luFactor M).lo.transpose (forwardSub (luFactor M).up.transpose b) k := by
    simp only [Matrix.mulVec, Matrix.dotProduct, Matrix.transpose_apply, luSolveTransposed]
    rw [← Equiv.sum_comp (luFactor M).perm
      (fun i => M i j * backSub (luFactor M).lo.transpose
        (forwardSub (luFactor M).up.transpose b) ((luFactor M).perm.symm i))]
    refine Finset.sum_congr rfl fun k _ => ?_
    rw [luFactor_mul_eq M k j, Equiv.symm_apply_apply]
  rw [h1]
  have h2 : ∑ k, ((luFactor M).lo * (luFactor M).up) k j
      * backSub (luFactor M).lo.transpose (forwardSub (luFactor M).up.transpose b) k
      = ((luFactor M).up.transpose * (luFactor M).lo.transpose).mulVec
          (backSub (luFactor M).lo.transpose (forwardSub (luFactor M).up.transpose b)) j := by
    rw [← Matrix.transpose_mul]
    simp only [Matrix.mulVec, Matrix.dotProduct, Matrix.transpose_apply]
  rw [h2, ← Matrix.mulVec_mulVec, hz, hy]

/-! ### `SolveMatrix.setup` / `SolveMatrix.linearize`: sparse partials

`setup` declares the triplet sparsity patterns (`rows`, `cols`) and
`linearize` fills the value arrays; the dense Jacobian an OpenMDAO caller
sees accumulates the triplets. -/

/-- Dense Jacobian entry assembled from a sparse triplet pattern. -/
def assembleJac {m : ℕ} (rows cols : Fin m → ℕ) (vals : Fin m → ℚ) (i j : ℕ) : ℚ :=
  ∑ t, if rows t = i ∧ cols t = j then vals t else 0

theorem fin_sq_div_lt {n : ℕ} (t : Fin (n * n)) : (t : ℕ) / n < n := by
  have h := t.isLt
  rcases Nat.eq_zero_or_pos n with rfl | hn
  · simp at h
  · exact (Nat.div_lt_iff_lt_mul hn).mpr h

theorem fin_sq_mod_lt {n : ℕ} (t : Fin (n * n)) : (t : ℕ) % n < n := by
  have h := t.isLt
  rcases Nat.eq_zero_or_pos n with rfl | hn
  · simp at h
  · exact Nat.mod_lt _ hn

/-- `np.outer(np.arange(n), np.ones(n)).flatten()`: the output row index,
repeated across each flattened row. -/
def rowsRep {n : ℕ} (t : Fin (n * n)) : ℕ := (t : ℕ) / n

/-- `np.outer(np.ones(n), np.arange(n)).flatten()`: the column index
pattern for the `circulations` input. -/
def colsRep {n : ℕ} (t : Fin (n * n)) : ℕ := (t : ℕ) % n

/-- `np.arange(system_size ** 2)`: the column pattern for the flattened
`mtx` input. -/
def colsFlat {n : ℕ} (t : Fin (n * n)) : ℕ := (t : ℕ)

/-- `np.arange(system_size)`: the diagonal pattern for the `rhs` input. -/
def rowsId {n : ℕ} (t : Fin n) : ℕ := (t : ℕ)

/-- `linearize`: `partials['circulations','circulations'] = inputs['mtx'].flatten()`. -/
def valsMtxFlat {n : ℕ} (M : Matrix (Fin n) (Fin n) ℚ) (t : Fin (n * n)) : ℚ :=
  M ⟨(t : ℕ) / n, fin_sq_div_lt t⟩ ⟨(t : ℕ) % n, fin_sq_mod_lt t⟩

/-- `linearize`:
`partials['circulations','mtx'] = np.outer(np.ones(n), outputs['circulations']).flatten()`. -/
def valsGammaTile {n : ℕ} (Γ : Fin n → ℚ) (t : Fin (n * n)) : ℚ :=
  Γ ⟨(t : ℕ) % n, fin_sq_mod_lt t⟩

/-- `setup`: `declare_partials('circulations', 'rhs', val=-1., ...)`. -/
def valsNegOne {n : ℕ} (_ : Fin n) : ℚ := -1

theorem flat_index_lt {n : ℕ} (j k : Fin n) : (j : ℕ) * n + (k : ℕ) < n * n := by
  have hj : (j : ℕ) + 1 ≤ n := j.isLt
  have hk := k.isLt
  have h1 : ((j : ℕ) + 1) * n ≤ n * n := Nat.mul_le_mul_right n hj
  have h2 : ((j : ℕ) + 1) * n = (j : ℕ) * n + n := by ring
  omega

theorem flat_index_div {n : ℕ} (j k : Fin n) : ((j : ℕ) * n + (k : ℕ)) / n = j := by
  have hn : 0 < n := j.pos
  rw [Nat.mul_comm, Nat.mul_add_div hn, Nat.div_eq_of_lt k.isLt, add_zero]

theorem flat_index_mod {n : ℕ} (j k : Fin n) : ((j : ℕ) * n + (k : ℕ)) % n = k := by
  rw [Nat.mul_comm, Nat.mul_add_mod, Nat.mod_eq_of_lt k.isLt]

/-- The assembled `circulations`-wrt-`circulations` block is `M` itself. -/
theorem assembled_dRdGamma {n : ℕ} (M : Matrix (Fin n) (Fin n) ℚ) (i k : Fin n) :
    assembleJac rowsRep colsRep (valsMtxFlat M) (i : ℕ) (k : ℕ) = M i k := by
  rw [assembleJac, Finset.sum_eq_single (⟨(i : ℕ) * n + (k : ℕ), flat_index_lt i k⟩ : Fin (n * n))]
  · rw [if_pos ⟨flat_index_div i k, flat_index_mod i k⟩]
    have hd1 : ((i : ℕ) * n + (k : ℕ)) / n < n := by
      rw [flat_index_div i k]; exact i.isLt
    have hm1 : ((i : ℕ) * n + (k : ℕ)) % n < n := by
      rw [flat_index_mod i k]; exact k.isLt
    simp only [valsMtxFlat, Fin.val_mk]
    rw [show (⟨((i : ℕ) * n + (k : ℕ)) / n, hd1⟩ : Fin n) = i from
        Fin.ext (flat_index_div i k),
      show (⟨((i : ℕ) * n + (k : ℕ)) % n, hm1⟩ : Fin n) = k from
        Fin.ext (flat_index_mod i k)]
  · intro b _ hb
    rw [if_neg]
    rintro ⟨h1, h2⟩
    apply hb
    rw [rowsRep] at h1
    rw [colsRep] at h2
    have h4 : (b : ℕ) = n * (i : ℕ) + (k : ℕ) := by
      rw [← h1, ← h2]
      exact (Nat.div_add_mod _ _).symm
    exact Fin.ext (show (b : ℕ) = (i : ℕ) * n + (k : ℕ) from by rw [h4, Nat.mul_comm])
  · intro habs
    exact absurd (Finset.mem_univ _) habs

/-- The assembled `circulations`-wrt-`rhs` block is the negative identity. -/
theorem assembled_dRdRhs {n : ℕ} (i k : Fin n) :
    assembleJac (rowsId : Fin n → ℕ) rowsId valsNegOne (i : ℕ) (k : ℕ)
      = (-(1 : Matrix (Fin n) (Fin n) ℚ)) i k := by
  rw [assembleJac]
  by_cases h : i = k
  · subst h
    rw [Finset.sum_eq_single i]
    · rw [if_pos ⟨rfl, rfl⟩]
      simp [valsNegOne, Matrix.one_apply]
    · intro b _ hb
      rw [if_neg]
      rintro ⟨h1, _⟩
      exact hb (Fin.ext h1)
    · intro habs
      exact absurd (Finset.mem_univ _) habs
  · rw [Finset.sum_eq_zero]
    · simp [Matrix.one_apply, h]
    · intro b _
      rw [if_neg]
      rintro ⟨h1, h2⟩
      rw [rowsId] at h1 h2
      exact h (Fin.ext (h1 ▸ h2 ▸ rfl))

/-- The assembled `circulations`-wrt-`mtx` block: row `i` only responds to
its own matrix row, where the partial wrt `M[i,k]` is `Γ[k]`. -/
theorem assembled_dRdMtx {n : ℕ} (Γ : Fin n → ℚ) (i j k : Fin n) :
    assembleJac rowsRep colsFlat (valsGammaTile Γ) (i : ℕ) ((j : ℕ) * n + (k : ℕ))
      = if i = j then Γ k else 0 := by
  rw [assembleJac]
  by_cases h : i = j
  · subst h
    rw [if_pos rfl,
      Finset.sum_eq_single (⟨(i : ℕ) * n + (k : ℕ), flat_index_lt i k⟩ : Fin (n * n))]
    · rw [if_pos ⟨flat_index_div i k, rfl⟩]
      simp only [valsGammaTile]
      congr 1
      ext
      exact flat_index_mod i k
    · intro b _ hb
      rw [if_neg]
      rintro ⟨_, h2⟩
      rw [colsFlat] at h2
      exact hb (Fin.ext h2)
    · intro habs
      exact absurd (Finset.mem_univ _) habs
  · rw [if_neg h, Finset.sum_eq_zero]
    intro b _
    rw [if_neg]
    rintro ⟨h1, h2⟩
    rw [rowsRep] at h1
    rw [colsFlat] at h2
    apply h
    ext
    rw [← h1, h2, flat_index_div j k]

/-- At `fem_origin = 0.25` the two interpolated point fields coincide, so
every panel moment vanishes. -/
theorem momentArr_quarter {cx my : ℕ} (mesh : Fin (cx + 2) → Fin (my + 1) → Fin 3 → ℚ)
    (sf : Fin (cx + 1) → Fin my → Fin 3 → ℚ) (j : Fin my) (c : Fin 3) :
    momentArr (1/4) mesh sf j c = 0 := by
  rw [momentArr]
  fin_cases c <;> simp [crossVec]

/-- With `fem_origin = 0.25` every moment column of the nodal loads is
zero. -/
theorem transferLoads_quarter_moments {cx my : ℕ}
    (mesh : Fin (cx + 2) → Fin (my + 1) → Fin 3 → ℚ)
    (sf : Fin (cx + 1) → Fin my → Fin 3 → ℚ) (j : Fin (my + 1)) (c : Fin 6)
    (hc : 3 ≤ (c : ℕ)) :
    transferLoads (1/4) mesh sf j c = 0 := by
  rw [transferLoads, dif_neg (by omega)]
  have hm := momentArr_quarter mesh sf
  rcases Nat.lt_or_ge (j : ℕ) my with h | h
  · rcases Nat.eq_zero_or_pos (j : ℕ) with h0 | h0
    · rw [dif_pos h, dif_neg (by omega), hm, mul_zero, add_zero]
    · rw [dif_pos h, dif_pos h0, hm, hm, mul_zero, add_zero]
  · rcases Nat.eq_zero_or_pos (j : ℕ) with h0 | h0
    · rw [dif_neg (by omega), dif_neg (by omega), add_zero]
    · rw [dif_neg (by omega), dif_pos h0, hm, mul_zero, zero_add]

/-! ### The claims -/

/-- C1: for every invertible matrix `M` (`det M ≠ 0` over the exact-number
model) and every right-hand side `b`, `SolveMatrix.solve_nonlinear` returns
circulations `Γ` with `M·Γ = b`, and the residual `apply_nonlinear`
evaluates at that `Γ` to `M·Γ − b = 0` (exact arithmetic standing in for
"to solver precision"). -/
theorem C1_solve_returns_solution {n : ℕ} (M : Matrix (Fin n) (Fin n) ℚ)
    (b : Fin n → ℚ) (h : M.det ≠ 0) :
    M.mulVec (solve_nonlinear M b) = b
      ∧ apply_nonlinear M (solve_nonlinear M b) b = 0 := by
  have h1 : M.mulVec (solve_nonlinear M b) = b := luSolveForward_correct M b h
  exact ⟨h1, by rw [apply_nonlinear, h1, sub_self]⟩

/-- Witness for C1 at a concrete invertible system. -/
theorem C1_solve_returns_solution_witness :
    (!![(2:ℚ), 1; 1, 1]).det ≠ 0
      ∧ ((!![(2:ℚ), 1; 1, 1]).mulVec (solve_nonlinear !![(2:ℚ), 1; 1, 1] ![3, 2]) = ![3, 2]
        ∧ apply_nonlinear !![(2:ℚ), 1; 1, 1]
            (solve_nonlinear !![(2:ℚ), 1; 1, 1] ![3, 2]) ![3, 2] = 0) :=
  ⟨by decide!, C1_solve_returns_solution !![(2:ℚ), 1; 1, 1] ![3, 2] (by decide!)⟩

/-- C2 counterexample: for the singular matrix `[[1,1],[0,0]]` (a zero
row) and `b = (1,1)`, the code raises nothing: `lu_factor` merely flags the
zero pivot (scipy emits a `LinAlgWarning`, not an exception — no
`SingularSystemError` exists anywhere in the code), and `solve_nonlinear`
still returns a circulation vector, which is not a solution of `M·Γ = b`.
This is exactly the silently-returned non-solution the claim rules out. -/
theorem C2_singular_counterexample :
    (luFactor (!![(1:ℚ), 1; 0, 0])).sing = true
      ∧ (!![(1:ℚ), 1; 0, 0]).mulVec
          (solve_nonlinear !![(1:ℚ), 1; 0, 0] ![1, 1]) ≠ ![1, 1] := by
  constructor
  · decide!
  · decide!

/-- C2 amended: for every singular `M` the factorization is flagged
singular (the `getrf` info that scipy surfaces only as a warning);
`solve_nonlinear` is total, so the caller receives a vector rather than a
`SingularSystemError`. -/
theorem C2_singular_only_flagged {n : ℕ} (M : Matrix (Fin n) (Fin n) ℚ)
    (h : M.det = 0) : (luFactor M).sing = true :=
  luFactor_sing_true M h

/-- Witness for the amended C2 at a concrete singular matrix. -/
theorem C2_singular_only_flagged_witness :
    (!![(0:ℚ), 0; 1, 1]).det = 0 ∧ (luFactor !![(0:ℚ), 0; 1, 1]).sing = true :=
  ⟨by decide!, C2_singular_only_flagged !![(0:ℚ), 0; 1, 1] (by decide!)⟩

/-- C3: the three Jacobian blocks declared in `setup` and filled in
`linearize`, assembled densely from their triplet patterns, are: `∂R/∂Γ`
equal to `M` elementwise; `∂R/∂b` equal to the negative identity (declared
constant `-1` on the diagonal at `setup` time, independent of `M` and `Γ`);
and `∂R/∂M` with `∂R_i/∂M[i,k] = Γ[k]` and zero on every row `j ≠ i` of the
matrix slice. -/
theorem C3_linearize_partials {n : ℕ} (M : Matrix (Fin n) (Fin n) ℚ) (Γ : Fin n → ℚ) :
    (∀ i k : Fin n, assembleJac rowsRep colsRep (valsMtxFlat M) (i : ℕ) (k : ℕ) = M i k)
      ∧ (∀ i k : Fin n, assembleJac (rowsId : Fin n → ℕ) rowsId valsNegOne (i : ℕ) (k : ℕ)
          = (-(1 : Matrix (Fin n) (Fin n) ℚ)) i k)
      ∧ (∀ i j k : Fin n, assembleJac rowsRep colsFlat (valsGammaTile Γ) (i : ℕ)
          ((j : ℕ) * n + (k : ℕ)) = if i = j then Γ k else 0) :=
  ⟨fun i k => assembled_dRdGamma M i k, fun i k => assembled_dRdRhs i k,
    fun i j k => assembled_dRdMtx Γ i j k⟩

/-- C4: with the factorization cache holding `lu_factor M` (as populated by
`solve_nonlinear` or `linearize`), `solve_linear` solves `M·x = s` in
forward mode and `Mᵀ·x = t` in reverse mode from the same cached factors
(the definition of `solve_linear` performs no factorization), and the two
modes are adjoint: `⟨solveLinear(s,fwd), t⟩ = ⟨s, solveLinear(t,rev)⟩`. -/
theorem C4_solve_linear_modes {n : ℕ} (M : Matrix (Fin n) (Fin n) ℚ)
    (s t : Fin n → ℚ) (h : M.det ≠ 0) :
    M.mulVec (solve_linear (luFactor M) Mode.fwd s) = s
      ∧ M.transpose.mulVec (solve_linear (luFactor M) Mode.rev t) = t
      ∧ Matrix.dotProduct (solve_linear (luFactor M) Mode.fwd s) t
          = Matrix.dotProduct s (solve_linear (luFactor M) Mode.rev t) := by
  have hf : M.mulVec (solve_linear (luFactor M) Mode.fwd s) = s :=
    luSolveForward_correct M s h
  have hr : M.transpose.mulVec (solve_linear (luFactor M) Mode.rev t) = t :=
    luSolveTransposed_correct M t h
  refine ⟨hf, hr, ?_⟩
  conv_lhs => rw [← hr]
  rw [Matrix.dotProduct_mulVec, Matrix.vecMul_transpose, hf]

/-- Witness for C4 at a concrete invertible system and concrete seeds. -/
theorem C4_solve_linear_modes_witness :
    (!![(2:ℚ), 1; 0, 1]).det ≠ 0
      ∧ ((!![(2:ℚ), 1; 0, 1]).mulVec
            (solve_linear (luFactor !![(2:ℚ), 1; 0, 1]) Mode.fwd ![1, 0]) = ![1, 0]
        ∧ (!![(2:ℚ), 1; 0, 1]).transpose.mulVec
            (solve_linear (luFactor !![(2:ℚ), 1; 0, 1]) Mode.rev ![0, 1]) = ![0, 1]
        ∧ Matrix.dotProduct
            (solve_linear (luFactor !![(2:ℚ), 1; 0, 1]) Mode.fwd ![1, 0]) ![0, 1]
          = Matrix.dotProduct ![1, 0]
              (solve_linear (luFactor !![(2:ℚ), 1; 0, 1]) Mode.rev ![0, 1])) :=
  ⟨by decide!, C4_solve_linear_modes !![(2:ℚ), 1; 0, 1] ![1, 0] ![0, 1] (by decide!)⟩

/-- C5: for every deformed mesh, every sectional-force field, every
`fem_origin` and every force component, the nodal loads sum over the
spanwise nodes to the total of the chordwise-reduced sectional forces:
each panel's reduced force is split half-and-half onto its two bounding
nodes, so the total is conserved exactly. -/
theorem C5_load_conservation {cx my : ℕ} (w : ℚ)
    (mesh : Fin (cx + 2) → Fin (my + 1) → Fin 3 → ℚ)
    (sf : Fin (cx + 1) → Fin my → Fin 3 → ℚ) (c : Fin 3) :
    (∑ j, transferLoads w mesh sf j (Fin.castLE (by norm_num) c))
      = ∑ p, secReduce sf p c :=
  transferLoads_conserves w mesh sf c

/-- C6: for every mesh and every `fem_origin` in `[0,1]`, an all-zero
displacement field leaves the mesh unchanged (the transform `T` vanishes at
zero angles and the translation is zero). -/
theorem C6_zero_disp_identity {mx my : ℕ} (w : ℝ) (h0 : 0 ≤ w) (h1 : w ≤ 1)
    (mesh : Fin (mx + 1) → Fin (my + 1) → Fin 3 → ℝ) :
    transferDisp w mesh (fun _ _ => 0) = mesh :=
  transferDisp_zero w mesh

/-- Witness for C6 at a concrete mesh and `fem_origin = 1/4`. -/
theorem C6_zero_disp_identity_witness :
    (0:ℝ) ≤ 1/4 ∧ (1:ℝ)/4 ≤ 1
      ∧ transferDisp (1/4) (fun (_ : Fin 1) (_ : Fin 1) (_ : Fin 3) => (1:ℝ))
          (fun _ _ => 0) = fun _ _ _ => (1:ℝ) :=
  ⟨by norm_num, by norm_num,
    C6_zero_disp_identity (1/4) (by norm_num) (by norm_num)
      (fun (_ : Fin 1) (_ : Fin 1) (_ : Fin 3) => (1:ℝ))⟩

/-- C7: for every mesh and `fem_origin`, zero rotations with a uniform
translation `(dx,dy,dz)` shift every mesh point by exactly `(dx,dy,dz)`. -/
theorem C7_uniform_translation {mx my : ℕ} (w : ℝ)
    (mesh : Fin (mx + 1) → Fin (my + 1) → Fin 3 → ℝ) (dx dy dz : ℝ) :
    transferDisp w mesh (fun _ => ![dx, dy, dz, 0, 0, 0])
      = fun i j c => mesh i j c + ![dx, dy, dz] c :=
  transferDisp_translate w mesh dx dy dz

/-- The unit chordwise sectional-force field of the C8 scenario:
`(0,0,1)` on each of the two spanwise panels (`nx = 2`, so one chordwise
panel row). -/
def sfUnit2 : Fin 1 → Fin 2 → Fin 3 → ℚ :=
  ![![![0, 0, 1], ![0, 0, 1]]]

/-- C8 counterexample: in the concrete scenario (`nx=2`, `ny=3`, flat XY
mesh `mesh[i][j] = (i, j, 0)`, `fem_origin = 0.25`, unit sectional force
`(0,0,1)` on both panels) the nodal loads are exactly
`(0,0,1/2 | 0,0,0), (0,0,1 | 0,0,0), (0,0,1/2 | 0,0,0)`: the force columns
do sum to `(0,0,2)`, but every pitching-moment entry is exactly zero —
`fem_origin = 0.25` coincides with the quarter-chord weight of `a_pts`, so
the moment arm vanishes and the claimed nonzero pitching moments do not
exist. -/
theorem C8_scenario_counterexample :
    transferLoads (1/4)
      (![![![0, 0, 0], ![0, 1, 0], ![0, 2, 0]],
         ![![1, 0, 0], ![1, 1, 0], ![1, 2, 0]]] : Fin 2 → Fin 3 → Fin 3 → ℚ)
      sfUnit2
      = (![![0, 0, 1/2, 0, 0, 0], ![0, 0, 1, 0, 0, 0],
           ![0, 0, 1/2, 0, 0, 0]] : Fin 3 → Fin 6 → ℚ) := by
  decide!

/-- C8 amended: in the scenario (`nx=2`, `ny=3`, `fem_origin = 0.25`, unit
sectional force `(0,0,1)` on both panels), for any flat-XY (indeed any)
mesh: zero displacement returns the mesh unchanged, the force columns of
the nodal loads sum to `(0,0,2)`, and the moment columns are identically
zero (not nonzero as claimed) because the structural axis at
`fem_origin = 0.25` coincides with the quarter-chord line. -/
theorem C8_scenario_amended (meshR : Fin 2 → Fin 3 → Fin 3 → ℝ)
    (meshQ : Fin 2 → Fin 3 → Fin 3 → ℚ) :
    transferDisp (1/4) meshR (fun _ _ => 0) = meshR
      ∧ (∑ j, transferLoads (1/4) meshQ sfUnit2 j (Fin.castLE (by norm_num) (0 : Fin 3))) = 0
      ∧ (∑ j, transferLoads (1/4) meshQ sfUnit2 j (Fin.castLE (by norm_num) (1 : Fin 3))) = 0
      ∧ (∑ j, transferLoads (1/4) meshQ sfUnit2 j (Fin.castLE (by norm_num) (2 : Fin 3))) = 2
      ∧ ∀ (j : Fin 3) (c : Fin 3),
          transferLoads (1/4) meshQ sfUnit2 j
            ⟨(c : ℕ) + 3, by have := c.isLt; omega⟩ = 0 := by
  refine ⟨transferDisp_zero (1/4) meshR, ?_, ?_, ?_, ?_⟩
  · rw [transferLoads_conserves]
    decide!
  · rw [transferLoads_conserves]
    decide!
  · rw [transferLoads_conserves]
    decide!
  · intro j c
    exact transferLoads_quarter_moments meshQ sfUnit2 j _ (Nat.le_add_left 3 (c : ℕ))

/-- C9 counterexample: at `fem_origin = 2`, far outside `[0,1]`, the load
transfer computes straight through the same formulas and returns an
ordinary, fully-populated loads array — the code contains no
`InvalidWeightError` and performs no validation of `fem_origin`, so
nothing fails. -/
theorem C9_invalid_weight_counterexample :
    transferLoads 2
      (![![![0, 0, 0], ![0, 1, 0]], ![![1, 0, 0], ![1, 1, 0]]] : Fin 2 → Fin 2 → Fin 3 → ℚ)
      (![![![0, 0, 1]]] : Fin 1 → Fin 1 → Fin 3 → ℚ)
      = (![![0, 0, 1/2, 0, 7/8, 0], ![0, 0, 1/2, 0, 7/8, 0]] : Fin 2 → Fin 6 → ℚ) := by
  decide!

/-- C9 amended: the transfers perform no `fem_origin` validation; for
every weight outside `[0,1]` they return well-defined outputs computed
from the same interpolation formulas (here: total force is still conserved
exactly), instead of failing with an `InvalidWeightError` (which does not
exist in the code). -/
theorem C9_no_weight_validation {cx my : ℕ} (w : ℚ) (hw : w < 0 ∨ 1 < w)
    (mesh : Fin (cx + 2) → Fin (my + 1) → Fin 3 → ℚ)
    (sf : Fin (cx + 1) → Fin my → Fin 3 → ℚ) (c : Fin 3) :
    (∑ j, transferLoads w mesh sf j (Fin.castLE (by norm_num) c))
      = ∑ p, secReduce sf p c :=
  transferLoads_conserves w mesh sf c

/-- Witness for the amended C9 at `fem_origin = 2`. -/
theorem C9_no_weight_validation_witness :
    ((2:ℚ) < 0 ∨ 1 < (2:ℚ))
      ∧ (∑ j, transferLoads 2
          (![![![0, 0, 0], ![0, 1, 0]], ![![1, 0, 0], ![1, 1, 0]]] : Fin 2 → Fin 2 → Fin 3 → ℚ)
          (![![![0, 0, 1]]] : Fin 1 → Fin 1 → Fin 3 → ℚ) j
          (Fin.castLE (by norm_num) (2 : Fin 3)))
        = ∑ p, secReduce (![![![0, 0, 1]]] : Fin 1 → Fin 1 → Fin 3 → ℚ) p 2 :=
  ⟨Or.inr (by norm_num),
    C9_no_weight_validation 2 (Or.inr (by norm_num)) _ _ (2 : Fin 3)⟩

/-- C10: the nodal loads depend on the deformed mesh only through its
first two chordwise rows — the moment arm is built from `a_pts[0, j]` and
`s_pts[0, j]`, which interpolate mesh rows `0` and `1` only, and the force
columns do not read the mesh at all.  Two inputs agreeing on the
sectional forces and on mesh rows `0` and `1` produce identical loads. -/
theorem C10_loads_use_first_two_rows {cx my : ℕ} (w : ℚ)
    (mesh1 mesh2 : Fin (cx + 2) → Fin (my + 1) → Fin 3 → ℚ)
    (sf : Fin (cx + 1) → Fin my → Fin 3 → ℚ)
    (h0 : mesh1 0 = mesh2 0) (h1 : mesh1 1 = mesh2 1) :
    transferLoads w mesh1 sf = transferLoads w mesh2 sf := by
  have hi : ∀ (v : ℚ) (p : Fin my) (c3 : Fin 3),
      interpPts v mesh1 0 p c3 = interpPts v mesh2 0 p c3 := by
    intro v p c3
    rw [interpPts, interpPts,
      show ((0 : Fin (cx + 1)).castSucc) = (0 : Fin (cx + 2)) from by ext; simp,
      show ((0 : Fin (cx + 1)).succ) = (1 : Fin (cx + 2)) from by ext; simp,
      h0, h1]
  have hm : momentArr w mesh1 sf = momentArr w mesh2 sf := by
    funext p c3
    rw [momentArr, momentArr]
    congr 1
    funext c
    rw [hi, hi]
  funext j c
  rw [transferLoads, transferLoads, hm]

/-- Witness for C10: two concrete `nx = 3` meshes differing only in the
third chordwise row produce identical loads. -/
theorem C10_loads_use_first_two_rows_witness :
    ((![![![0, 0, 0], ![0, 1, 0]], ![![1, 0, 0], ![1, 1, 0]],
        ![![2, 0, 0], ![2, 1, 0]]] : Fin 3 → Fin 2 → Fin 3 → ℚ) 0
      = (![![![0, 0, 0], ![0, 1, 0]], ![![1, 0, 0], ![1, 1, 0]],
          ![![5, 7, 9], ![8, 6, 4]]] : Fin 3 → Fin 2 → Fin 3 → ℚ) 0)
    ∧ ((![![![0, 0, 0], ![0, 1, 0]], ![![1, 0, 0], ![1, 1, 0]],
          ![![2, 0, 0], ![2, 1, 0]]] : Fin 3 → Fin 2 → Fin 3 → ℚ) 1
      = (![![![0, 0, 0], ![0, 1, 0]], ![![1, 0, 0], ![1, 1, 0]],
          ![![5, 7, 9], ![8, 6, 4]]] : Fin 3 → Fin 2 → Fin 3 → ℚ) 1)
    ∧ transferLoads (1/4)
        (![![![0, 0, 0], ![0, 1, 0]], ![![1, 0, 0], ![1, 1, 0]],
           ![![2, 0, 0], ![2, 1, 0]]] : Fin 3 → Fin 2 → Fin 3 → ℚ)
        (![![![0, 0, 1]], ![![0, 0, 1]]] : Fin 2 → Fin 1 → Fin 3 → ℚ)
      = transferLoads (1/4)
        (![![![0, 0, 0], ![0, 1, 0]], ![![1, 0, 0], ![1, 1, 0]],
           ![![5, 7, 9], ![8, 6, 4]]] : Fin 3 → Fin 2 → Fin 3 → ℚ)
        (![![![0, 0, 1]], ![![0, 0, 1]]] : Fin 2 → Fin 1 → Fin 3 → ℚ) :=
  ⟨by decide!, by decide!,
    C10_loads_use_first_two_rows (1/4) _ _ _ (by decide!) (by decide!)⟩

end OAS
